import Mathlib

/-!
Verification development for the sshoc-nl-zotero enrichment modules
(`enrichment_modules/keyword_abstract_enrichment.py` and
`enrichment_modules/elsst_enrichment.py`).

The Python code is shallowly embedded: pure fragments become Lean
functions, stateful fragments become explicit state passing, and the
network-performing adapter calls become oracle parameters (each oracle
value is one possible sequence of adapter behaviours).  Python `float`
scores and confidences are modelled as exact rationals; the places where
the source compares against the literals `0.05`, `0.3`, `0.7` are
modelled by exact cross-multiplication, which agrees with the float
computation away from rounding boundaries.  Python strings are modelled
as Lean `String`/`List Char` (code-point sequences, as in CPython);
`str.lower`, `re.\w`, `re.\s` are modelled on their ASCII fragment.
-/

namespace SshocNL

/-! ## Source cascade (`find_article_online`)

`find_article_online(title, authors)` iterates over a fixed priority list
of adapters (`prioritized_sources`).  Each loop iteration is wrapped in
`try/except Exception: continue`.  An adapter call returns either a dict
or `None`; the dict carries `url`, `title`, `abstract`, `doi`, `journal`,
`confidence`, `method`, and optional `explicit_keywords`.  We embed one
adapter invocation as an `AdapterOutcome`: it raised, returned nothing
usable (`None`, an empty/falsy dict, dict without `abstract`), or
returned a result dict.  A run of the cascade is determined by the list
of `(source name, outcome)` pairs together with the deep-extraction
oracle, so the claims quantify over those. -/

structure SourceResult where
  url : String
  title : String
  abstract : String
  doi : String
  journal : String
  confidence : ℚ
  method : String
  source : String
  explicit_keywords : List String
deriving DecidableEq

/-- Output of `extract_content_from_url` (the deep-extraction pass): the
fields of the returned dict that `find_article_online` reads. -/
structure ExtractData where
  abstract : String
  explicit_keywords : List String
deriving DecidableEq

/-- One adapter invocation, as observed by the cascade loop. -/
inductive AdapterOutcome where
  /-- The call `source['method'](title, authors)` raised an exception. -/
  | raises : AdapterOutcome
  /-- the call returned `None`, a falsy dict, or a dict whose
  `abstract` entry is missing or empty (`if result and result.get('abstract')`
  is false; modelled separately from `ret` with empty abstract only for
  the `None`/falsy case). -/
  | retNone : AdapterOutcome
  /-- the call returned a (truthy) result dict. -/
  | ret : SourceResult → AdapterOutcome
deriving DecidableEq

/-- The "deep extraction" enhancement inside the cascade loop: when the
result has a URL, `extract_content_from_url` is attempted and its
abstract is adopted iff it is non-empty and strictly longer; on an
exception of the extraction (inner `try/except`) the original abstract is
kept, which coincides with the `none` oracle answer. -/
def enhanceResult (extract : String → Option ExtractData) (r : SourceResult) :
    SourceResult :=
  if r.url = "" then r
  else
    match extract r.url with
    | none => r
    | some d =>
      if d.abstract ≠ "" ∧ r.abstract.length < d.abstract.length then
        { r with abstract := d.abstract, explicit_keywords := d.explicit_keywords }
      else r

/-- One iteration of the `for source in prioritized_sources` loop:
given the current `best_result`/`best_abstract_length` state, either
early-return a result (`.inl`) or continue with an updated state
(`.inr`).  Mirrors lines 214-254 of the source: on a usable result the
abstract is possibly enhanced, the best state is updated when this
abstract is the longest seen (`result['source']` is set on the stored
dict), and if the length exceeds 200 the (source-tagged) result is
returned immediately. -/
def stepSource (extract : String → Option ExtractData) (name : String)
    (outcome : AdapterOutcome) (best : Option SourceResult) (bestLen : Nat) :
    SourceResult ⊕ (Option SourceResult × Nat) :=
  match outcome with
  | .raises => .inr (best, bestLen)
  | .retNone => .inr (best, bestLen)
  | .ret r =>
    if r.abstract = "" then .inr (best, bestLen)
    else
      let r1 := enhanceResult extract r
      let len := r1.abstract.length
      let tagged := { r1 with source := name }
      let next := if bestLen < len then (some tagged, len) else (best, bestLen)
      if 200 < len then .inl tagged else .inr next

/-- The cascade loop over the remaining sources, from a given
`best`/`bestLen` state.  `.inl r` is an early return, `.inr (b, l)` is
loop completion with final state. -/
def cascadeLoop (extract : String → Option ExtractData) :
    List (String × AdapterOutcome) → Option SourceResult → Nat →
    SourceResult ⊕ (Option SourceResult × Nat)
  | [], best, bestLen => .inr (best, bestLen)
  | (name, outcome) :: rest, best, bestLen =>
    match stepSource extract name outcome best bestLen with
    | .inl r => .inl r
    | .inr (b, l) => cascadeLoop extract rest b l

/-- The canonical "not found" result returned when the cascade is
exhausted with no abstract (lines 263-272). -/
def notFoundResult (title : String) : SourceResult :=
  { url := "", title := title, abstract := "", doi := "", journal := "",
    confidence := 0, method := "not_found", source := "none",
    explicit_keywords := [] }

/-- Embedding of `find_article_online`: run the cascade from the empty state; on loop
completion return the best result if any, else the canonical
`not_found` result. -/
def find_article_online (extract : String → Option ExtractData)
    (title : String) (sources : List (String × AdapterOutcome)) : SourceResult :=
  match cascadeLoop extract sources none 0 with
  | .inl r => r
  | .inr (some b, _) => b
  | .inr (none, _) => notFoundResult title

/-- The source names whose adapters are invoked during a run (every loop
iteration invokes its adapter first, so a name is listed iff the loop
reaches it). -/
def invokedSources (extract : String → Option ExtractData) :
    List (String × AdapterOutcome) → Option SourceResult → Nat → List String
  | [], _, _ => []
  | (name, outcome) :: rest, best, bestLen =>
    match stepSource extract name outcome best bestLen with
    | .inl _ => [name]
    | .inr (b, l) => name :: invokedSources extract rest b l

/-- The usable candidate results a full (non-early-exiting) run of the
cascade sees: for every adapter that returned a dict with a non-empty
abstract, the enhanced and source-tagged result. -/
def candidateResults (extract : String → Option ExtractData)
    (sources : List (String × AdapterOutcome)) : List SourceResult :=
  sources.filterMap fun p =>
    match p.2 with
    | .ret r =>
      if r.abstract = "" then none
      else some { enhanceResult extract r with source := p.1 }
    | _ => none

/-! ## Content validators

`_is_readable_text` and `_is_content_safe_to_process` from
`keyword_abstract_enrichment.py`.  Regex character classes are embedded
as char predicates over the code-point list; `re.search` over the
handful of fixed patterns is embedded as an explicit scan over suffixes.
`\w`/`\s`/`str.lower` are modelled on their ASCII fragment (the source
text these predicates are applied to in the claims is ASCII). -/

/-- ASCII fragment of Python's `\s`. -/
def isPySpace (c : Char) : Bool :=
  c = ' ' || c = '\t' || c = '\n' || c = '\x0d' || c = '\x0b' || c = '\x0c'

/-- ASCII fragment of Python's `\w` (`[A-Za-z0-9_]`). -/
def isPyWordChar (c : Char) : Bool :=
  c.isAlphanum || c = '_'

/-- A character of the class `[a-zA-Z0-9\s.,;:!?()-]` counted by
`_is_readable_text` (ASCII `\s`). -/
def isReadableChar (c : Char) : Bool :=
  c.isAlphanum || isPySpace c ||
    (c = '.' || c = ',' || c = ';' || c = ':' || c = '!' || c = '?' ||
     c = '(' || c = ')' || c = '-')

/-- Python `needle in hay` substring test on code-point lists
(`"" in s` is true). -/
def containsSub (needle : List Char) : List Char → Bool
  | [] => needle.isEmpty
  | c :: t => needle.isPrefixOf (c :: t) || containsSub needle t

/-- The common English/Dutch words whose presence (as substrings of the
lowercased text) `_is_readable_text` requires. -/
def commonWords : List String :=
  ["the", "and", "of", "in", "to", "a", "is", "that", "for", "with",
   "de", "het", "en", "van", "in", "een", "dat", "voor", "met", "op"]

/-- Embedding of `_is_readable_text(text)`: length ≥ 10, more than 70% readable
characters (the float comparison `readable/total > 0.7` is modelled
exactly as `10 * readable > 7 * total`), and at least one common word
occurring in the lowercased text. -/
def is_readable_text (text : String) : Bool :=
  let cs := text.toList
  if cs.length < 10 then false
  else
    let readable := (cs.filter isReadableChar).length
    let lower := cs.map Char.toLower
    (10 * readable > 7 * cs.length) &&
      commonWords.any fun w => containsSub w.toList lower

/-- A character of the class `[\x00-\x08\x0B\x0C\x0E-\x1F\x7F-\x9F]`
(control characters counted by `_is_content_safe_to_process`). -/
def isControlChar (c : Char) : Bool :=
  c.toNat ≤ 0x08 || c.toNat = 0x0B || c.toNat = 0x0C ||
    (0x0E ≤ c.toNat && c.toNat ≤ 0x1F) ||
    (0x7F ≤ c.toNat && c.toNat ≤ 0x9F)

/-- A character of the class `[\x20-\x7E]` (its complement is the
"non-ASCII" count). -/
def isPrintableAscii (c : Char) : Bool :=
  0x20 ≤ c.toNat && c.toNat ≤ 0x7E

/-- Maximal runs of `\w` characters of a text (used for the
`\b[a-zA-Z]{3,}\b` readable-word count: inside such a run a match must
cover the whole run, so the matches of that regex are exactly the
all-letter runs of length ≥ 3). -/
def wordRuns (cs : List Char) : List (List Char) :=
  let step := fun (acc : List (List Char) × List Char) (c : Char) =>
    if isPyWordChar c then (acc.1, acc.2 ++ [c])
    else if acc.2 = [] then (acc.1, [])
    else (acc.1 ++ [acc.2], [])
  let fin := cs.foldl step ([], [])
  if fin.2 = [] then fin.1 else fin.1 ++ [fin.2]

/-- Number of matches of `\b[a-zA-Z]{3,}\b`. -/
def readableWordCount (cs : List Char) : Nat :=
  ((wordRuns cs).filter fun r => 3 ≤ r.length && r.all Char.isAlpha).length

/-- Consume a literal at the head of the text. -/
def eatLit (lit cs : List Char) : Option (List Char) :=
  if lit.isPrefixOf cs then some (cs.drop lit.length) else none

/-- Consume `\s*` (always succeeds). -/
def eatWsStar (cs : List Char) : List Char :=
  cs.dropWhile isPySpace

/-- Consume `\s+`. -/
def eatWsPlus (cs : List Char) : Option (List Char) :=
  match cs with
  | c :: t => if isPySpace c then some (t.dropWhile isPySpace) else none
  | [] => none

/-- Consume `\w+`. -/
def eatWordPlus (cs : List Char) : Option (List Char) :=
  match cs with
  | c :: t => if isPyWordChar c then some (t.dropWhile isPyWordChar) else none
  | [] => none

/-- Consume `[a-zA-Z]+`. -/
def eatAlphaPlus (cs : List Char) : Option (List Char) :=
  match cs with
  | c :: t => if c.isAlpha then some (t.dropWhile Char.isAlpha) else none
  | [] => none

/-- Does `function\s*\(` match at the head?  (The character classes of
consecutive tokens are disjoint, so greedy matching without backtracking
is exact; likewise below.) -/
def jsFunctionAt (cs : List Char) : Bool :=
  match eatLit "function".toList cs with
  | some rest => (eatWsStar rest).headD 'x' = '('
  | none => false

/-- Does `kw\s+\w+\s*=` (for `kw` ∈ var/let/const) match at the head? -/
def jsDeclAt (kw : String) (cs : List Char) : Bool :=
  match eatLit kw.toList cs with
  | some r1 =>
    match eatWsPlus r1 with
    | some r2 =>
      match eatWordPlus r2 with
      | some r3 => (eatWsStar r3).headD 'x' = '='
      | none => false
    | none => false
  | none => false

/-- Does `\[\s*"[a-zA-Z]+"\s*,` match at the head? -/
def jsArrayAt (cs : List Char) : Bool :=
  match eatLit ['['] cs with
  | some r1 =>
    match eatLit ['\x22'] (eatWsStar r1) with
    | some r2 =>
      match eatAlphaPlus r2 with
      | some r3 =>
        match eatLit ['\x22'] r3 with
        | some r4 => (eatWsStar r4).headD 'x' = ','
        | none => false
      | none => false
    | none => false
  | none => false

/-- Does `"\w+"\s*\]` match at the head? -/
def jsQuotedAt (cs : List Char) : Bool :=
  match eatLit ['\x22'] cs with
  | some r1 =>
    match eatWordPlus r1 with
    | some r2 =>
      match eatLit ['\x22'] r2 with
      | some r3 => (eatWsStar r3).headD 'x' = ']'
      | none => false
    | none => false
  | none => false

/-- Embedding of `re.search`: does the position matcher fire at some suffix? -/
def anySuffix (p : List Char → Bool) : List Char → Bool
  | [] => p []
  | c :: t => p (c :: t) || anySuffix p t

/-- The literal javascript signatures of `_is_content_safe_to_process`
(searched case-insensitively, hence given lowercased and matched against
the lowercased text). -/
def jsLiteralPatterns : List String :=
  [".parentnode.", "insertbefore(", "addeventlistener(",
   "removeeventlistener(", "document.", "window.",
   "addeventproperties", "removeeventproperty", "seteventproperties"]

/-- Any of the 15 javascript/code signatures of
`_is_content_safe_to_process` matches (case-insensitively) somewhere in
the text. -/
def hasJsPattern (cs : List Char) : Bool :=
  let ls := cs.map Char.toLower
  jsLiteralPatterns.any (fun lit => containsSub lit.toList ls) ||
    anySuffix jsFunctionAt ls ||
    anySuffix (jsDeclAt "var") ls ||
    anySuffix (jsDeclAt "let") ls ||
    anySuffix (jsDeclAt "const") ls ||
    anySuffix jsArrayAt ls ||
    anySuffix jsQuotedAt ls

/-- Embedding of `_is_content_safe_to_process(content)`: length ≥ 50, at most 5%
control characters, at most 30% non-ASCII characters (both float
comparisons modelled exactly by cross-multiplication), none of the
javascript signatures, and at least 10 readable words. -/
def is_content_safe_to_process (content : String) : Bool :=
  let cs := content.toList
  if cs.length < 50 then false
  else if 20 * (cs.filter isControlChar).length > cs.length then false
  else if 10 * (cs.filter (fun c => !isPrintableAscii c)).length > 3 * cs.length then
    false
  else if hasJsPattern cs then false
  else if readableWordCount cs < 10 then false
  else true

/-! ## Keyword ranking (`rank_keywords`)

`rank_keywords(explicit_keywords, generated_keywords, title, abstract)`
builds a score dict (insertion-ordered, keyed by the lowercased
keyword), boosts by title containment and repeated abstract occurrence,
sorts descending by score (Python `sorted` is stable), and splits: the
first 8 sorted entries filtered by `score >= 7.0` become `primary`, the
entries from position 9 on filtered by `score >= 5.0` become
`secondary`.  Scores are exact rationals. -/

/-- Python non-overlapping `str.count` scan: count matches left to
right, and after a match skip the remaining `needle.length - 1`
characters of the match (the skip argument) before looking again. -/
def countSubGo (needle : List Char) : List Char → Nat → Nat
  | [], _ => 0
  | _ :: t, k + 1 => countSubGo needle t k
  | c :: t, 0 =>
    if needle.isPrefixOf (c :: t) then
      1 + countSubGo needle t (needle.length - 1)
    else countSubGo needle t 0

/-- Python `hay.count(needle)` (`s.count("")` is `len(s) + 1`). -/
def countSub (needle hay : List Char) : Nat :=
  if needle = [] then hay.length + 1 else countSubGo needle hay 0

/-- Assignment `keyword_scores[k] = v` on an insertion-ordered dict modelled as an
association list: re-assignment keeps the original position. -/
def setScore (m : List (String × ℚ)) (k : String) (v : ℚ) : List (String × ℚ) :=
  if m.any fun e => e.1 = k then
    m.map fun e => if e.1 = k then (k, v) else e
  else m ++ [(k, v)]

/-- Lowercase a `String` code-point-wise (Python `str.lower`, ASCII
fragment). -/
def lowerStr (s : String) : String :=
  String.mk (s.toList.map Char.toLower)

/-- The score dict after the four scoring passes of `rank_keywords`:
explicit keywords 10.0; generated keywords not already present 5.0;
`+3.0` when the key occurs in the lowercased title; `+count*0.5` when
the key occurs more than once in the lowercased abstract. -/
def keywordScores (explicit generated : List String)
    (title abstract : String) : List (String × ℚ) :=
  let m0 := explicit.foldl (fun m kw => setScore m (lowerStr kw) 10) []
  let m1 := generated.foldl
    (fun m kw =>
      if m.any fun e => e.1 = lowerStr kw then m else m ++ [(lowerStr kw, 5)])
    m0
  let titleChars := (title.toList.map Char.toLower)
  let m2 := m1.map fun e =>
    if containsSub e.1.toList titleChars then (e.1, e.2 + 3) else e
  let absChars := (abstract.toList.map Char.toLower)
  m2.map fun e =>
    let c := countSub e.1.toList absChars
    if 1 < c then (e.1, e.2 + c * (Rat.mk' 1 2 : ℚ)) else e

/-- Descending stable comparison on scored keywords (`sorted(...,
key=lambda x: x[1], reverse=True)`). -/
def scoreGE (a b : String × ℚ) : Prop := b.2 ≤ a.2

instance : DecidableRel scoreGE := fun a b =>
  inferInstanceAs (Decidable (b.2 ≤ a.2))

instance : IsTotal (String × ℚ) scoreGE := ⟨fun a b => le_total b.2 a.2⟩

instance : IsTrans (String × ℚ) scoreGE :=
  ⟨fun _ _ _ h1 h2 => le_trans h2 h1⟩

/-- The sorted score list (stable, descending: `List.insertionSort`
inserts an earlier element before later ties, exactly like Python's
stable descending sort). -/
def sortedScores (explicit generated : List String)
    (title abstract : String) : List (String × ℚ) :=
  List.insertionSort scoreGE (keywordScores explicit generated title abstract)

/-- Embedding of `rank_keywords`: the `(primary, secondary)` split of the sorted
score list. -/
def rank_keywords (explicit generated : List String)
    (title abstract : String) : List String × List String :=
  let s := sortedScores explicit generated title abstract
  (((s.take 8).filter fun e => decide ((7 : ℚ) ≤ e.2)).map Prod.fst,
   ((s.drop 8).filter fun e => decide ((5 : ℚ) ≤ e.2)).map Prod.fst)

/-! ## ELSST concept deduplication and categorization

`_deduplicate_and_rank_concepts` folds the concept list into a dict
keyed by `uri` (insertion-ordered; on a collision the higher-confidence
concept is kept — strictly-greater replaces — and the
`matching_keywords` lists are merged through `list(set(...))`, whose
order CPython leaves unspecified: we model it as order-preserving
deduplication of the concatenation and state keyword facts at the set
level), then sorts by confidence descending.
`map_keywords_to_elsst` partitions the result into
`primary` (confidence ≥ 0.7) and `secondary` (0.3 ≤ confidence < 0.7). -/

structure ELSSTConcept where
  uri : String
  preferred_label : String
  alternative_labels : List String
  broader_concepts : List String
  definition : String
  confidence_score : ℚ
  matching_keywords : List String
deriving DecidableEq

/-- The uri-collision merge of `_deduplicate_and_rank_concepts`: the
strictly higher-confidence concept survives (ties keep the existing
entry `e`) and the `matching_keywords` are merged. -/
def mergeFn (c e : ELSSTConcept) : ELSSTConcept :=
  if e.uri = c.uri then
    if e.confidence_score < c.confidence_score then
      { c with matching_keywords :=
          (c.matching_keywords ++ e.matching_keywords).dedup }
    else
      { e with matching_keywords :=
          (e.matching_keywords ++ c.matching_keywords).dedup }
  else e

/-- One step of the dedup fold: merge concept `c` into the uri-keyed
map (dict assignment keeps the original position of an existing key). -/
def mergeInto (m : List ELSSTConcept) (c : ELSSTConcept) : List ELSSTConcept :=
  if m.any fun e => e.uri = c.uri then m.map (mergeFn c)
  else m ++ [c]

/-- Descending confidence comparison on concepts. -/
def confGE (a b : ELSSTConcept) : Prop :=
  b.confidence_score ≤ a.confidence_score

instance : DecidableRel confGE := fun a b =>
  inferInstanceAs (Decidable (b.confidence_score ≤ a.confidence_score))

instance : IsTotal ELSSTConcept confGE :=
  ⟨fun a b => le_total b.confidence_score a.confidence_score⟩

instance : IsTrans ELSSTConcept confGE :=
  ⟨fun _ _ _ h1 h2 => le_trans h2 h1⟩

/-- Embedding of `_deduplicate_and_rank_concepts`. -/
def deduplicate_and_rank_concepts (cs : List ELSSTConcept) : List ELSSTConcept :=
  List.insertionSort confGE (cs.foldl mergeInto [])

/-- The confidence partition of `map_keywords_to_elsst` (lines 671-672):
`primary_concepts` and `secondary_concepts`. -/
def categorizeConcepts (found : List ELSSTConcept) :
    List ELSSTConcept × List ELSSTConcept :=
  (found.filter fun c => decide ((7 / 10 : ℚ) ≤ c.confidence_score),
   found.filter fun c =>
     decide ((3 / 10 : ℚ) ≤ c.confidence_score) &&
       decide (c.confidence_score < (7 / 10 : ℚ)))

/-! ## Cache keys (`_create_cache_key`)

Both enrichers key their caches by `hashlib.md5(key_string)` where
`key_string` is `f"{title}|{authors}".lower()`
(keyword/abstract enricher) resp.
`f"{title}|{','.join(sorted(keywords))}".lower()` (ELSST enricher).
`md5` is a fixed deterministic function of the digest input, so key
equality is digest-input equality (md5 collisions aside); we therefore
model the key as the digest input itself, a code-point list.
`sorted` on Python strings is the code-point lexicographic order, which
is `String`'s linear order. -/

/-- Embedding of `KeywordAbstractEnricher._create_cache_key(title, authors)`
(the md5 digest input). -/
def create_cache_key_content (title authors : String) : List Char :=
  (title.toList ++ '|' :: authors.toList).map Char.toLower

/-- Code-point lexicographic comparison (Python `str` comparison: a
proper prefix sorts first, otherwise the first differing code point
decides). -/
def lexLeChars : List Char → List Char → Bool
  | [], _ => true
  | _ :: _, [] => false
  | a :: as, b :: bs =>
    if a.toNat < b.toNat then true
    else if a.toNat = b.toNat then lexLeChars as bs
    else false

/-- Python `<=` on strings. -/
def strLe (a b : String) : Prop :=
  lexLeChars a.toList b.toList = true

instance : DecidableRel strLe := fun a b =>
  inferInstanceAs (Decidable (_ = true))

instance : IsTotal String strLe := by
  constructor
  intro a b
  unfold strLe
  generalize a.toList = as
  generalize b.toList = bs
  induction as generalizing bs with
  | nil => exact Or.inl rfl
  | cons x xs ih =>
    cases bs with
    | nil => exact Or.inr rfl
    | cons y ys =>
      by_cases h1 : x.toNat < y.toNat
      · exact Or.inl (by simp [lexLeChars, h1])
      · by_cases h2 : x.toNat = y.toNat
        · have hn : ¬ y.toNat < x.toNat := by omega
          rcases ih ys with h | h
          · exact Or.inl (by simp [lexLeChars, h1, h2, h])
          · exact Or.inr (by simp [lexLeChars, hn, h2.symm, h])
        · have hlt : y.toNat < x.toNat := by omega
          exact Or.inr (by simp [lexLeChars, hlt])

instance : IsTrans String strLe := by
  constructor
  intro a b c
  unfold strLe
  generalize a.toList = as
  generalize b.toList = bs
  generalize c.toList = cs
  induction as generalizing bs cs with
  | nil => intro _ _; rfl
  | cons x xs ih =>
    cases bs with
    | nil => intro h _; simp [lexLeChars] at h
    | cons y ys =>
      cases cs with
      | nil => intro _ h; simp [lexLeChars] at h
      | cons z zs =>
        intro h1 h2
        simp only [lexLeChars] at h1 h2 ⊢
        by_cases hxy : x.toNat < y.toNat
        · by_cases hyz : y.toNat < z.toNat
          · simp [show x.toNat < z.toNat by omega]
          · rcases Nat.lt_or_ge y.toNat z.toNat with h | h
            · omega
            · rw [if_neg hyz] at h2
              by_cases heq : y.toNat = z.toNat
              · simp [show x.toNat < z.toNat by omega]
              · simp [heq] at h2
        · rw [if_neg hxy] at h1
          by_cases heq : x.toNat = y.toNat
          · rw [if_pos heq] at h1
            by_cases hyz : y.toNat < z.toNat
            · simp [show x.toNat < z.toNat by omega]
            · rw [if_neg hyz] at h2
              by_cases heq2 : y.toNat = z.toNat
              · rw [if_pos heq2] at h2
                have : ¬ x.toNat < z.toNat := by omega
                simp [this, show x.toNat = z.toNat by omega]
                exact ih ys zs h1 h2
              · simp [heq2] at h2
          · simp [heq] at h1

instance : IsAntisymm String strLe := by
  constructor
  intro a b hab hba
  unfold strLe at hab hba
  apply String.ext
  have : ∀ (as bs : List Char), lexLeChars as bs = true →
      lexLeChars bs as = true → as = bs := by
    intro as
    induction as with
    | nil =>
      intro bs _ hba
      cases bs with
      | nil => rfl
      | cons y ys => simp [lexLeChars] at hba
    | cons x xs ih =>
      intro bs hab hba
      cases bs with
      | nil => simp [lexLeChars] at hab
      | cons y ys =>
        simp only [lexLeChars] at hab hba
        by_cases hxy : x.toNat < y.toNat
        · have : ¬ y.toNat < x.toNat := by omega
          have : ¬ y.toNat = x.toNat := by omega
          simp_all
        · by_cases heq : x.toNat = y.toNat
          · have h1 : x = y := Char.ext (UInt32.ext heq)
            rw [if_neg hxy, if_pos heq] at hab
            have : ¬ y.toNat < x.toNat := by omega
            rw [if_neg this, if_pos heq.symm] at hba
            rw [h1, ih ys hab hba]
          · simp [hxy, heq] at hab
  exact this a.toList b.toList hab hba

/-- Python `sorted` on strings (code-point lexicographic; stability is
irrelevant on strings since ties are equal). -/
def sortStrings (l : List String) : List String :=
  List.insertionSort strLe l

/-- Embedding of `ELSSTEnricher._create_cache_key(keywords, title)`
(the md5 digest input).  NB: `sorted` runs on the original-case
keywords; `.lower()` is applied only afterwards to the joined string. -/
def create_cache_key_elsst (keywords : List String) (title : String) : List Char :=
  (title.toList ++
      '|' :: (String.intercalate "," (sortStrings keywords)).toList).map
    Char.toLower

/-! ## The cache flush (`_save_cache`)

`_save_cache` performs `open(self.cache_file, 'w', ...)` — which
truncates the target in place — followed by `json.dump(self.cache, f,
...)`, inside `try/except IOError`.  We embed the flush as its sequence
of file-system effects and give crash semantics by running a prefix of
that sequence against a disk state (a map from path to contents). -/

inductive FileOp where
  /-- Effect of `open(path, 'w')`: truncate/create the file in place. -/
  | truncateOpen (path : String)
  /-- a completed `json.dump`: the file now holds the serialization. -/
  | writeAll (path : String) (data : String)
deriving DecidableEq

/-- The path an operation touches. -/
def FileOp.path : FileOp → String
  | .truncateOpen p => p
  | .writeAll p _ => p

/-- The effect sequence of `_save_cache` (serialization of `self.cache`
abstracted as `serialized`).  There is no temporary file and no rename:
both effects hit the cache file directly. -/
def save_cache_ops (cacheFile serialized : String) : List FileOp :=
  [FileOp.truncateOpen cacheFile, FileOp.writeAll cacheFile serialized]

/-- Apply one effect to the disk. -/
def applyFileOp (disk : String → Option String) : FileOp → String → Option String
  | .truncateOpen p => fun q => if q = p then some "" else disk q
  | .writeAll p d => fun q => if q = p then some d else disk q

/-- Run an effect prefix (a crash is modelled as stopping after any
prefix). -/
def runFileOps (ops : List FileOp) (disk : String → Option String) :
    String → Option String :=
  ops.foldl applyFileOp disk

/-! ## Caching orchestration (`extract_content_and_keywords`)

`extract_content_and_keywords(title, authors, publication_uri)` first
looks the cache key up; a hit returns `ContentInfo(**cached_data)`
(which reconstructs exactly the stored field values) with no further
work.  On a miss it initializes a `ContentInfo`, runs the big `try`
block (CrossRef lookup, the source cascade, scraping, keyword
generation and ranking — the only network-performing code, embedded
below as the oracle `body`), or, if that block raises, keeps the fields
assigned so far and sets `extraction_confidence = 0.0`,
`extraction_method = 'failed'`; in both cases it then stores the record
in the cache and flushes.  `body title authors uri init` returns
`.ok record` for a normal completion and `.error record` for a raise,
`record` being the `ContentInfo` state at that moment;
`bodyInvocations` counts executions of the `try` block (zero network
calls happen outside it).  `str(int(time.time()))` is the parameter
`now`. -/

structure ContentInfo where
  publication_title : String
  publication_authors : String
  publication_uri : String
  found_article_url : String
  found_article_title : String
  article_abstract : String
  article_doi : String
  article_journal : String
  article_identifiers : List String
  article_pmid : String
  article_arxiv_id : String
  article_handle : String
  explicit_keywords : List String
  generated_keywords : List String
  primary_keywords : List String
  secondary_keywords : List String
  extraction_confidence : ℚ
  extraction_method : String
  extraction_timestamp : String
deriving DecidableEq, Inhabited

/-- The dataclass defaults together with the four constructor arguments
of the cache-miss initialization. -/
def initContentInfo (title authors uri now : String) : ContentInfo :=
  { publication_title := title, publication_authors := authors,
    publication_uri := uri, found_article_url := "",
    found_article_title := "", article_abstract := "", article_doi := "",
    article_journal := "", article_identifiers := [], article_pmid := "",
    article_arxiv_id := "", article_handle := "", explicit_keywords := [],
    generated_keywords := [], primary_keywords := [],
    secondary_keywords := [], extraction_confidence := 0,
    extraction_method := "", extraction_timestamp := now }

/-- The record stored by the `except` branch: the partial record with
`extraction_confidence = 0.0` and `extraction_method = 'failed'`. -/
def failedInfo (p : ContentInfo) : ContentInfo :=
  { p with extraction_confidence := 0, extraction_method := "failed" }

/-- The in-memory cache dict (insertion-ordered, keyed by the digest
input) plus the count of `try`-block executions. -/
structure EnricherState where
  cache : List (List Char × ContentInfo)
  bodyInvocations : Nat

/-- Lookup `cache_key in self.cache` / `self.cache[cache_key]`. -/
def lookupCache (cache : List (List Char × ContentInfo)) (k : List Char) :
    Option ContentInfo :=
  (cache.find? fun e => decide (e.1 = k)).map Prod.snd

/-- Assignment `self.cache[cache_key] = asdict(content_info)` (dict assignment
keeps the original position of an existing key). -/
def storeCache (cache : List (List Char × ContentInfo)) (k : List Char)
    (v : ContentInfo) : List (List Char × ContentInfo) :=
  if cache.any fun e => decide (e.1 = k) then
    cache.map fun e => if e.1 = k then (k, v) else e
  else cache ++ [(k, v)]

/-- Embedding of `extract_content_and_keywords`. -/
def extract_content_and_keywords
    (body : String → String → String → ContentInfo →
      Except ContentInfo ContentInfo)
    (now : String) (st : EnricherState) (title authors uri : String) :
    ContentInfo × EnricherState :=
  let key := create_cache_key_content title authors
  match lookupCache st.cache key with
  | some cached => (cached, st)
  | none =>
    let info :=
      match body title authors uri (initContentInfo title authors uri now) with
      | .ok r => r
      | .error p => failedInfo p
    (info,
     { cache := storeCache st.cache key info,
       bodyInvocations := st.bodyInvocations + 1 })

/-! ## The ELSST caching orchestration (`map_keywords_to_elsst`)

`map_keywords_to_elsst(keywords, title, abstract)` mirrors
`extract_content_and_keywords`: key lookup, on a hit
`return ELSSTInfo(**cached_data)`, on a miss run the `try` block —
`search_elsst_concepts` (the network-performing step) followed by the
confidence partition and statistics — or, on a raise, set
`mapping_confidence = 0.0`, `mapping_method = 'failed'`; then store
`asdict(elsst_info)` and flush.  Unlike `ContentInfo`, an `ELSSTInfo`
nests `ELSSTConcept` dataclass instances: `asdict` recursively converts
them to plain dicts, and `ELSSTInfo(**cached_data)` assigns those dicts
back without reconstructing dataclasses — so a cache hit returns a
record whose concept lists hold dicts, which in Python never compare
equal to dataclass instances. -/

/-- A concept record as it appears inside an `ELSSTInfo`'s concept
lists: either a real `ELSSTConcept` dataclass instance (as produced by
`search_elsst_concepts`) or the plain dict of the same field values
that `asdict` stores and a cache hit hands back.  A dataclass instance
never compares equal to a dict in Python, which the two constructors
model. -/
inductive ConceptRec where
  | obj : ELSSTConcept → ConceptRec
  | dict : ELSSTConcept → ConceptRec
deriving DecidableEq

/-- Effect of `asdict` on one concept record: a dataclass instance
becomes its field dict; a dict is rebuilt as a dict. -/
def toDictRec : ConceptRec → ConceptRec
  | .obj c => .dict c
  | .dict c => .dict c

structure ELSSTInfo where
  publication_title : String
  publication_keywords : List String
  primary_concepts : List ConceptRec
  secondary_concepts : List ConceptRec
  total_concepts_found : Nat
  mapping_confidence : ℚ
  mapping_method : String
  mapping_timestamp : String
deriving DecidableEq, Inhabited

/-- The dataclass defaults together with the three constructor
arguments of the cache-miss initialization (lines 660-664). -/
def initELSSTInfo (title : String) (keywords : List String) (now : String) :
    ELSSTInfo :=
  { publication_title := title, publication_keywords := keywords,
    primary_concepts := [], secondary_concepts := [],
    total_concepts_found := 0, mapping_confidence := 0,
    mapping_method := "", mapping_timestamp := now }

/-- Embedding of `asdict(elsst_info)`: nested `ELSSTConcept` instances
become plain dicts; every other field is flat and survives
unchanged. -/
def asdictInfo (i : ELSSTInfo) : ELSSTInfo :=
  { i with primary_concepts := i.primary_concepts.map toDictRec,
           secondary_concepts := i.secondary_concepts.map toDictRec }

/-- The `try` block of `map_keywords_to_elsst` after
`search_elsst_concepts` returned `found` (lines 668-687): partition at
0.7 / [0.3, 0.7), record the count, then set the average confidence
and `"vocabulary_similarity"` when anything was found, else confidence
0.0 and `"no_matches"`. -/
def elsstTryBlock (found : List ELSSTConcept) (info : ELSSTInfo) : ELSSTInfo :=
  let info1 := { info with
    primary_concepts := (categorizeConcepts found).1.map ConceptRec.obj,
    secondary_concepts := (categorizeConcepts found).2.map ConceptRec.obj,
    total_concepts_found := found.length }
  if found.isEmpty then
    { info1 with mapping_confidence := 0, mapping_method := "no_matches" }
  else
    { info1 with
      mapping_confidence :=
        (found.map ELSSTConcept.confidence_score).sum / (found.length : ℚ),
      mapping_method := "vocabulary_similarity" }

/-- The ELSST enricher's in-memory cache dict plus the count of
`search_elsst_concepts` executions (the only site of network I/O in
`map_keywords_to_elsst`). -/
structure ElsstState where
  cache : List (List Char × ELSSTInfo)
  searchInvocations : Nat

/-- Lookup `cache_key in self.cache` / `self.cache[cache_key]` for the
ELSST cache. -/
def lookupElsstCache (cache : List (List Char × ELSSTInfo)) (k : List Char) :
    Option ELSSTInfo :=
  (cache.find? fun e => decide (e.1 = k)).map Prod.snd

/-- Assignment `self.cache[cache_key] = asdict(elsst_info)` (dict
assignment keeps the original position of an existing key). -/
def storeElsstCache (cache : List (List Char × ELSSTInfo)) (k : List Char)
    (v : ELSSTInfo) : List (List Char × ELSSTInfo) :=
  if cache.any fun e => decide (e.1 = k) then
    cache.map fun e => if e.1 = k then (k, v) else e
  else cache ++ [(k, v)]

/-- Embedding of `map_keywords_to_elsst`.  The oracle `search` is
`search_elsst_concepts`; `.error` models a raise, in which case none of
the assignments after the call have run and the `except` branch sets
confidence 0.0 and method `"failed"`.  The returned record carries
dataclass concept instances (`.obj`); the cache stores
`asdict(elsst_info)`; a hit returns `ELSSTInfo(**cached_data)` — the
stored record with its plain-dict concepts, as-is. -/
def map_keywords_to_elsst
    (search : List String → String → String → Except Unit (List ELSSTConcept))
    (now : String) (st : ElsstState) (keywords : List String)
    (title abstract : String) : ELSSTInfo × ElsstState :=
  let key := create_cache_key_elsst keywords title
  match lookupElsstCache st.cache key with
  | some cached => (cached, st)
  | none =>
    let info :=
      match search keywords title abstract with
      | .ok found => elsstTryBlock found (initELSSTInfo title keywords now)
      | .error _ =>
        { initELSSTInfo title keywords now with
          mapping_confidence := 0, mapping_method := "failed" }
    (info,
     { cache := storeElsstCache st.cache key (asdictInfo info),
       searchInvocations := st.searchInvocations + 1 })

/-- Invariant of the dedup fold of `_deduplicate_and_rank_concepts`
relating the concepts `seen` so far to the accumulated uri-keyed map
`m`: uris are unique, each kept concept carries the maximum confidence
among its seen duplicates (and that confidence is attained by one of
them), its `matching_keywords` are exactly the union of its duplicates'
keywords, and every seen uri is represented. -/
structure DedupInv (seen m : List ELSSTConcept) : Prop where
  nodup : (m.map ELSSTConcept.uri).Nodup
  maxConf : ∀ c ∈ m, ∀ d ∈ seen,
    d.uri = c.uri → d.confidence_score ≤ c.confidence_score
  attained : ∀ c ∈ m, ∃ d ∈ seen,
    d.uri = c.uri ∧ d.confidence_score = c.confidence_score
  kwUnion : ∀ c ∈ m, ∀ kw, kw ∈ c.matching_keywords ↔
    ∃ d ∈ seen, d.uri = c.uri ∧ kw ∈ d.matching_keywords
  complete : ∀ d ∈ seen, ∃ c ∈ m, c.uri = d.uri

/-! ## Concrete instances used by witnesses and counterexamples -/

/-- A deep-extraction oracle that never finds anything (every inner
`extract_content_from_url` attempt fails or returns nothing usable). -/
def wExtract : String → Option ExtractData := fun _ => none

/-- An adapter result carrying only an abstract (no URL, so deep
extraction is not attempted). -/
def mkPlainResult (abs : String) : SourceResult :=
  { url := "", title := "t", abstract := abs, doi := "", journal := "",
    confidence := Rat.mk' 1 2, method := "api", source := "",
    explicit_keywords := [] }

/-- 250 letters `x`: longer than the early-exit threshold, yet it fails
both content validators (no common English/Dutch word occurs in it, and
it contains a single readable word, fewer than the required 10). -/
def wAbstract250 : String := String.mk (List.replicate 250 'x')

def wAbstract120 : String := String.mk (List.replicate 120 'x')

def wAbstract150 : String := String.mk (List.replicate 150 'x')

def wResult250 : SourceResult := mkPlainResult wAbstract250

def wResult120 : SourceResult := mkPlainResult wAbstract120

def wResult150 : SourceResult := mkPlainResult wAbstract150

/-- Two concepts with the same uri and different confidences, as
produced e.g. by a direct vocabulary match (`"economy"`, alias
confidence 1.0 path) and an alias match (`"economic"`, 0.8). -/
def wConceptA : ELSSTConcept :=
  { uri := "https://elsst.cessda.eu/id/5/3b58eac5",
    preferred_label := "ECONOMICS", alternative_labels := [],
    broader_concepts := [], definition := "", confidence_score := 1,
    matching_keywords := ["economy"] }

def wConceptB : ELSSTConcept :=
  { uri := "https://elsst.cessda.eu/id/5/3b58eac5",
    preferred_label := "ECONOMICS", alternative_labels := [],
    broader_concepts := [], definition := "", confidence_score := Rat.mk' 4 5,
    matching_keywords := ["economic"] }

/-- The disk before a flush: the cache file holds previously-good
data. -/
def cexDisk : String → Option String :=
  fun p => if p = "cache.json" then some "old" else none

/-- A `try`-block oracle that completes normally, returning the record
unchanged. -/
def wBody : String → String → String → ContentInfo →
    Except ContentInfo ContentInfo :=
  fun _ _ _ i => .ok i

/-- A `try`-block oracle that raises immediately (the record state at
the raise is the initial record). -/
def wFailBody : String → String → String → ContentInfo →
    Except ContentInfo ContentInfo :=
  fun _ _ _ i => .error i

/-- A `search_elsst_concepts` oracle that finds one concept. -/
def wSearch : List String → String → String →
    Except Unit (List ELSSTConcept) :=
  fun _ _ _ => .ok [wConceptA]

/-- A first (cache-missing) run of `map_keywords_to_elsst`. -/
def cexElsstFirst : ELSSTInfo × ElsstState :=
  map_keywords_to_elsst wSearch "0" ⟨[], 0⟩ ["economy"] "t" ""

/-- The key-equal second run: a pure cache hit. -/
def cexElsstSecond : ELSSTInfo × ElsstState :=
  map_keywords_to_elsst wSearch "1" cexElsstFirst.2 ["economy"] "t" ""

/-! ## Theorems about the source cascade -/

theorem cascadeLoop_append (e : String → Option ExtractData)
    (xs ys : List (String × AdapterOutcome)) (b : Option SourceResult)
    (l : Nat) :
    cascadeLoop e (xs ++ ys) b l =
      match cascadeLoop e xs b l with
      | .inl r => .inl r
      | .inr (b', l') => cascadeLoop e ys b' l' := by
  induction xs generalizing b l with
  | nil => simp [cascadeLoop]
  | cons hd tl ih =>
    obtain ⟨name, outcome⟩ := hd
    simp only [List.cons_append, cascadeLoop]
    cases h : stepSource e name outcome b l with
    | inl r => simp
    | inr st =>
      obtain ⟨b', l'⟩ := st
      exact ih b' l'

theorem invokedSources_append (e : String → Option ExtractData)
    (xs ys : List (String × AdapterOutcome)) (b : Option SourceResult)
    (l : Nat) (b' : Option SourceResult) (l' : Nat)
    (h : cascadeLoop e xs b l = .inr (b', l')) :
    invokedSources e (xs ++ ys) b l =
      invokedSources e xs b l ++ invokedSources e ys b' l' := by
  induction xs generalizing b l with
  | nil =>
    simp only [cascadeLoop] at h
    cases h
    simp [invokedSources]
  | cons hd tl ih =>
    obtain ⟨name, outcome⟩ := hd
    simp only [List.cons_append, cascadeLoop, invokedSources] at h ⊢
    cases hstep : stepSource e name outcome b l with
    | inl r => rw [hstep] at h; cases h
    | inr st =>
      obtain ⟨b'', l''⟩ := st
      rw [hstep] at h
      have h' : cascadeLoop e tl b'' l'' = .inr (b', l') := h
      show name :: invokedSources e (tl ++ ys) b'' l''
        = name :: invokedSources e tl b'' l'' ++ invokedSources e ys b' l'
      rw [ih b'' l'' h']
      rfl

theorem stepSource_early_exit (e : String → Option ExtractData)
    (name : String) (r : SourceResult) (b : Option SourceResult) (l : Nat)
    (habs : r.abstract ≠ "")
    (hlen : 200 < (enhanceResult e r).abstract.length) :
    stepSource e name (.ret r) b l = .inl { enhanceResult e r with source := name } := by
  simp only [stepSource, if_neg habs]
  simp [hlen]

/-- C1 (confirmed): as soon as one adapter of `find_article_online`
yields a result whose (possibly deep-extraction-enhanced) abstract is
longer than 200 characters, that enhanced, source-tagged result is
returned immediately, and the adapters after it in the priority list are
not invoked (the invoked-source trace ends at this adapter, independent
of the suffix). -/
theorem cascade_early_exit (e : String → Option ExtractData) (title : String)
    (pre suffix : List (String × AdapterOutcome)) (name : String)
    (r : SourceResult) (b : Option SourceResult) (l : Nat)
    (hpre : cascadeLoop e pre none 0 = .inr (b, l))
    (habs : r.abstract ≠ "")
    (hlen : 200 < (enhanceResult e r).abstract.length) :
    find_article_online e title (pre ++ (name, .ret r) :: suffix)
      = { enhanceResult e r with source := name }
    ∧ invokedSources e (pre ++ (name, .ret r) :: suffix) none 0
      = invokedSources e pre none 0 ++ [name] := by
  constructor
  · unfold find_article_online
    rw [cascadeLoop_append, hpre]
    simp only [cascadeLoop, stepSource_early_exit e name r b l habs hlen]
  · rw [invokedSources_append e _ _ _ _ _ _ hpre]
    simp only [invokedSources, stepSource_early_exit e name r b l habs hlen]

set_option maxRecDepth 16384 in
theorem cascade_early_exit_witness :
    find_article_online wExtract "t"
        ([("PubMed", .retNone)] ++ ("Europe PMC", .ret wResult250) ::
          [("Semantic Scholar", .retNone)])
      = { enhanceResult wExtract wResult250 with source := "Europe PMC" }
    ∧ invokedSources wExtract
        ([("PubMed", .retNone)] ++ ("Europe PMC", .ret wResult250) ::
          [("Semantic Scholar", .retNone)]) none 0
      = invokedSources wExtract [("PubMed", .retNone)] none 0 ++ ["Europe PMC"] :=
  cascade_early_exit wExtract "t" [("PubMed", .retNone)]
    [("Semantic Scholar", .retNone)] "Europe PMC" wResult250 none 0
    (by decide) (by decide) (by decide)

theorem length_le_enhance (e : String → Option ExtractData)
    (r : SourceResult) :
    r.abstract.length ≤ (enhanceResult e r).abstract.length := by
  unfold enhanceResult
  split
  · exact le_refl _
  · cases h : e r.url with
    | none => exact le_refl _
    | some d =>
      simp only
      split
      · next hcond => exact le_of_lt hcond.2
      · exact le_refl _

theorem candidate_length_pos (e : String → Option ExtractData)
    (sources : List (String × AdapterOutcome)) (c : SourceResult)
    (hc : c ∈ candidateResults e sources) : 1 ≤ c.abstract.length := by
  unfold candidateResults at hc
  rw [List.mem_filterMap] at hc
  obtain ⟨⟨name, outcome⟩, _, hout⟩ := hc
  cases outcome with
  | raises => cases hout
  | retNone => cases hout
  | ret r =>
    simp only at hout
    by_cases habs : r.abstract = ""
    · rw [if_pos habs] at hout; cases hout
    · rw [if_neg habs] at hout
      cases hout
      have hdata : r.abstract.data ≠ [] := by
        intro h
        apply habs
        apply String.ext
        simp [h]
      have hpos : 0 < r.abstract.data.length := List.length_pos.mpr hdata
      have hlen : r.abstract.length = r.abstract.data.length := rfl
      have h1 : 1 ≤ r.abstract.length := by omega
      exact le_trans h1 (length_le_enhance e r)

theorem cascadeLoop_complete_spec (e : String → Option ExtractData) :
    ∀ (sources : List (String × AdapterOutcome)) (best : Option SourceResult)
      (bestLen : Nat),
      (∀ c ∈ candidateResults e sources, c.abstract.length ≤ 200) →
      ∃ b l, cascadeLoop e sources best bestLen = .inr (b, l)
        ∧ bestLen ≤ l
        ∧ (∀ c ∈ candidateResults e sources, c.abstract.length ≤ l)
        ∧ ((b = best ∧ l = bestLen) ∨
            ∃ c ∈ candidateResults e sources, b = some c ∧ l = c.abstract.length) := by
  intro sources
  induction sources with
  | nil =>
    intro best bestLen _
    exact ⟨best, bestLen, rfl, le_refl _, by simp [candidateResults],
      Or.inl ⟨rfl, rfl⟩⟩
  | cons hd tl ih =>
    obtain ⟨name, outcome⟩ := hd
    intro best bestLen hno
    cases outcome with
    | raises =>
      have hcand : candidateResults e ((name, .raises) :: tl)
          = candidateResults e tl := by
        simp [candidateResults, List.filterMap_cons]
      rw [hcand] at hno ⊢
      obtain ⟨b, l, hrun, h1, h2, h3⟩ := ih best bestLen hno
      exact ⟨b, l, by simpa [cascadeLoop, stepSource] using hrun, h1, h2, h3⟩
    | retNone =>
      have hcand : candidateResults e ((name, .retNone) :: tl)
          = candidateResults e tl := by
        simp [candidateResults, List.filterMap_cons]
      rw [hcand] at hno ⊢
      obtain ⟨b, l, hrun, h1, h2, h3⟩ := ih best bestLen hno
      exact ⟨b, l, by simpa [cascadeLoop, stepSource] using hrun, h1, h2, h3⟩
    | ret r =>
      by_cases habs : r.abstract = ""
      · have hcand : candidateResults e ((name, .ret r) :: tl)
            = candidateResults e tl := by
          simp [candidateResults, List.filterMap_cons, habs]
        rw [hcand] at hno ⊢
        obtain ⟨b, l, hrun, h1, h2, h3⟩ := ih best bestLen hno
        refine ⟨b, l, ?_, h1, h2, h3⟩
        simpa [cascadeLoop, stepSource, habs] using hrun
      · have hcand : candidateResults e ((name, .ret r) :: tl)
            = { enhanceResult e r with source := name } :: candidateResults e tl := by
          simp [candidateResults, List.filterMap_cons, habs]
        set c0 : SourceResult := { enhanceResult e r with source := name } with hc0
        have hlen0 : c0.abstract.length = (enhanceResult e r).abstract.length := rfl
        have hc0le : c0.abstract.length ≤ 200 := by
          have := hno c0 (by rw [hcand]; exact List.mem_cons_self _ _)
          exact this
        have hnotl : ∀ c ∈ candidateResults e tl, c.abstract.length ≤ 200 := by
          intro c hc
          exact hno c (by rw [hcand]; exact List.mem_cons_of_mem _ hc)
        have hnoexit : ¬ (200 < (enhanceResult e r).abstract.length) := by
          rw [← hlen0]; omega
        have hstep : stepSource e name (.ret r) best bestLen
            = .inr (if bestLen < c0.abstract.length
                then (some c0, c0.abstract.length) else (best, bestLen)) := by
          simp only [stepSource, if_neg habs]
          rw [if_neg hnoexit]
        by_cases hbetter : bestLen < c0.abstract.length
        · obtain ⟨b, l, hrun, h1, h2, h3⟩ := ih (some c0) c0.abstract.length hnotl
          refine ⟨b, l, ?_, ?_, ?_, ?_⟩
          · simp only [cascadeLoop, hstep, if_pos hbetter]
            exact hrun
          · omega
          · intro c hc
            rw [hcand] at hc
            rcases List.mem_cons.mp hc with hhd | htl
            · subst hhd; omega
            · exact h2 c htl
          · rcases h3 with ⟨hb, hl⟩ | ⟨c, hc, hb, hl⟩
            · exact Or.inr ⟨c0, by rw [hcand]; exact List.mem_cons_self _ _,
                hb, hl⟩
            · exact Or.inr ⟨c, by rw [hcand]; exact List.mem_cons_of_mem _ hc,
                hb, hl⟩
        · obtain ⟨b, l, hrun, h1, h2, h3⟩ := ih best bestLen hnotl
          refine ⟨b, l, ?_, h1, ?_, ?_⟩
          · simp only [cascadeLoop, hstep, if_neg hbetter]
            exact hrun
          · intro c hc
            rw [hcand] at hc
            rcases List.mem_cons.mp hc with hhd | htl
            · subst hhd; omega
            · exact h2 c htl
          · rcases h3 with ⟨hb, hl⟩ | ⟨c, hc, hb, hl⟩
            · exact Or.inl ⟨hb, hl⟩
            · exact Or.inr ⟨c, by rw [hcand]; exact List.mem_cons_of_mem _ hc,
                hb, hl⟩

/-- C2 (confirmed): when no adapter's (possibly enhanced) abstract
exceeds the 200-character early-exit threshold but at least one adapter
produced an abstract, `find_article_online` returns one of the seen
candidate results, and its abstract is at least as long as every seen
candidate's — best-of tracking, not first-hit. -/
theorem cascade_best_of (e : String → Option ExtractData) (title : String)
    (sources : List (String × AdapterOutcome))
    (hno : ∀ c ∈ candidateResults e sources, c.abstract.length ≤ 200)
    (hne : candidateResults e sources ≠ []) :
    find_article_online e title sources ∈ candidateResults e sources
    ∧ ∀ c ∈ candidateResults e sources,
        c.abstract.length ≤ (find_article_online e title sources).abstract.length := by
  obtain ⟨b, l, hrun, _, hbound, hdisj⟩ :=
    cascadeLoop_complete_spec e sources none 0 hno
  rcases hdisj with ⟨hb, hl⟩ | ⟨c, hc, hb, hl⟩
  · subst hb hl
    obtain ⟨c, hc⟩ := List.exists_mem_of_ne_nil _ hne
    have := hbound c hc
    have := candidate_length_pos e sources c hc
    omega
  · subst hb hl
    have hfind : find_article_online e title sources = c := by
      unfold find_article_online
      rw [hrun]
    rw [hfind]
    exact ⟨hc, hbound⟩

theorem cascade_best_of_witness :
    find_article_online wExtract "t"
        [("PubMed", .ret wResult120), ("Europe PMC", .ret wResult150),
         ("arXiv", .retNone)]
      ∈ candidateResults wExtract
        [("PubMed", .ret wResult120), ("Europe PMC", .ret wResult150),
         ("arXiv", .retNone)]
    ∧ ∀ c ∈ candidateResults wExtract
        [("PubMed", .ret wResult120), ("Europe PMC", .ret wResult150),
         ("arXiv", .retNone)],
        c.abstract.length ≤
          (find_article_online wExtract "t"
            [("PubMed", .ret wResult120), ("Europe PMC", .ret wResult150),
             ("arXiv", .retNone)]).abstract.length :=
  cascade_best_of wExtract "t"
    [("PubMed", .ret wResult120), ("Europe PMC", .ret wResult150),
     ("arXiv", .retNone)] (by decide) (by decide)

theorem no_candidates_cascade_id (e : String → Option ExtractData)
    (sources : List (String × AdapterOutcome))
    (h : candidateResults e sources = []) :
    ∀ b l, cascadeLoop e sources b l = .inr (b, l) := by
  induction sources with
  | nil => intro b l; rfl
  | cons hd tl ih =>
    obtain ⟨name, outcome⟩ := hd
    intro b l
    cases outcome with
    | raises =>
      have htl : candidateResults e tl = [] := by
        simpa [candidateResults, List.filterMap_cons] using h
      simpa [cascadeLoop, stepSource] using ih htl b l
    | retNone =>
      have htl : candidateResults e tl = [] := by
        simpa [candidateResults, List.filterMap_cons] using h
      simpa [cascadeLoop, stepSource] using ih htl b l
    | ret r =>
      by_cases habs : r.abstract = ""
      · have htl : candidateResults e tl = [] := by
          simpa [candidateResults, List.filterMap_cons, habs] using h
        have := ih htl b l
        simpa [cascadeLoop, stepSource, habs] using this
      · exfalso
        have : candidateResults e ((name, .ret r) :: tl)
            = { enhanceResult e r with source := name } :: candidateResults e tl := by
          simp [candidateResults, List.filterMap_cons, habs]
        rw [this] at h
        cases h

/-- C3 (confirmed): the cascade never aborts — an adapter that raises is
skipped and the run continues exactly as if it were absent — and a run
in which no adapter produces an abstract returns the canonical empty
result with url `""`, abstract `""`, confidence `0.0` and method
`"not_found"` rather than an error (the embedding is a total function:
no exception escapes `find_article_online`). -/
theorem cascade_error_handling (e : String → Option ExtractData)
    (title : String) (pre suffix sources : List (String × AdapterOutcome))
    (name : String) :
    find_article_online e title (pre ++ (name, AdapterOutcome.raises) :: suffix)
      = find_article_online e title (pre ++ suffix)
    ∧ (candidateResults e sources = [] →
        find_article_online e title sources = notFoundResult title) := by
  constructor
  · unfold find_article_online
    rw [cascadeLoop_append, cascadeLoop_append]
    cases h : cascadeLoop e pre none 0 with
    | inl r => rfl
    | inr st =>
      obtain ⟨b, l⟩ := st
      simp [cascadeLoop, stepSource]
  · intro h
    unfold find_article_online
    rw [no_candidates_cascade_id e sources h none 0]

theorem cascade_error_handling_witness :
    find_article_online wExtract "t"
        ([("PubMed", .retNone)] ++ ("Europe PMC", AdapterOutcome.raises) ::
          [("arXiv", .retNone)])
      = find_article_online wExtract "t" ([("PubMed", .retNone)] ++ [("arXiv", .retNone)])
    ∧ find_article_online wExtract "t" [("PubMed", .retNone)] = notFoundResult "t" :=
  ⟨(cascade_error_handling wExtract "t" [("PubMed", .retNone)]
      [("arXiv", .retNone)] [("PubMed", .retNone)] "Europe PMC").1,
   (cascade_error_handling wExtract "t" [("PubMed", .retNone)]
      [("arXiv", .retNone)] [("PubMed", .retNone)] "Europe PMC").2 (by decide)⟩

/-! ## Theorems about content validation in the cascade -/

set_option maxRecDepth 16384 in
/-- C4 counterexample: a 250-character adapter abstract that fails both
`_is_content_safe_to_process` and `_is_readable_text` is nevertheless
accepted by `find_article_online` — it is returned via the early exit
(and thereby flows onward into the persistent cache).  The claim that
every accepted abstract has passed the validators is therefore false:
no validator is invoked anywhere in the cascade loop. -/
theorem cascade_accepts_unvalidated_text :
    find_article_online wExtract "t" [("PubMed", .ret wResult250)]
      = { wResult250 with source := "PubMed" }
    ∧ is_content_safe_to_process wAbstract250 = false
    ∧ is_readable_text wAbstract250 = false := by
  refine ⟨?_, ?_, ?_⟩ <;> decide

/-- C4 (corrected): acceptance of an adapter abstract by the cascade —
being tracked as best and/or returned via early exit — depends only on
its (enhanced) length, never on the content validators: a result whose
abstract fails both `_is_content_safe_to_process` and
`_is_readable_text` is accepted all the same.  The
`isSafeToProcess`/`isReadable` filtering exists only inside particular
deep-extraction helpers (e.g. the Dutch-university and
direct-repository scrapers), not in `find_article_online`. -/
theorem cascade_no_validation (e : String → Option ExtractData)
    (title name : String) (r : SourceResult)
    (suffix : List (String × AdapterOutcome))
    (habs : r.abstract ≠ "") (hurl : r.url = "")
    (hlen : 200 < r.abstract.length)
    (hNotSafe : is_content_safe_to_process r.abstract = false)
    (hNotReadable : is_readable_text r.abstract = false) :
    find_article_online e title ((name, .ret r) :: suffix)
      = { r with source := name } := by
  have henh : enhanceResult e r = r := by
    unfold enhanceResult
    rw [if_pos hurl]
  have hlen' : 200 < (enhanceResult e r).abstract.length := by
    rw [henh]; exact hlen
  unfold find_article_online
  have hstep := stepSource_early_exit e name r none 0 habs hlen'
  rw [henh] at hstep
  simp only [cascadeLoop, hstep]

set_option maxRecDepth 16384 in
theorem cascade_no_validation_witness :
    find_article_online wExtract "t"
        [("PubMed", .ret wResult250), ("Europe PMC", .retNone)]
      = { wResult250 with source := "PubMed" } :=
  cascade_no_validation wExtract "t" "PubMed" wResult250
    [("Europe PMC", .retNone)] (by decide) (by decide) (by decide)
    (by decide) (by decide)

/-! ## Theorems about keyword ranking -/

/-- C5 counterexample: a single generated keyword scores exactly 5.0
with no boosts, yet `rank_keywords` drops it entirely — it sits inside
the first-8 window of the sorted list, where only `score >= 7.0`
survives; `secondary` draws exclusively from positions 9 onward — so it
lands in neither tier, contradicting "every remaining keyword with
final score >= 5.0 lands in secondary". -/
theorem rank_keywords_drops_score_five :
    keywordScores [] ["kw"] "" "" = [("kw", 5)]
    ∧ rank_keywords [] ["kw"] "" "" = ([], []) := by
  exact ⟨by decide, by decide⟩

/-- C5 (corrected): `primary` is the first 8 sorted entries restricted
to score ≥ 7.0 (hence never more than 8, all with score ≥ 7.0 in the
score table); `secondary` consists of keywords from position 9 onward of
the sorted order with score ≥ 5.0 — and every such entry does land in
`secondary` — but a keyword with score in [5.0, 7.0) that falls within
the first 8 positions is dropped, not placed in `secondary`. -/
theorem rank_keywords_window (explicit generated : List String)
    (title abstract : String) :
    (rank_keywords explicit generated title abstract).1.length ≤ 8
    ∧ (∀ kw ∈ (rank_keywords explicit generated title abstract).1,
        ∃ sc, (kw, sc) ∈ keywordScores explicit generated title abstract
          ∧ (7 : ℚ) ≤ sc)
    ∧ (∀ kw ∈ (rank_keywords explicit generated title abstract).2,
        ∃ sc, (kw, sc) ∈ (sortedScores explicit generated title abstract).drop 8
          ∧ (kw, sc) ∈ keywordScores explicit generated title abstract
          ∧ (5 : ℚ) ≤ sc)
    ∧ (∀ p ∈ (sortedScores explicit generated title abstract).drop 8,
        (5 : ℚ) ≤ p.2 →
          p.1 ∈ (rank_keywords explicit generated title abstract).2) := by
  refine ⟨?_, ?_, ?_, ?_⟩
  · calc (rank_keywords explicit generated title abstract).1.length
        = (((sortedScores explicit generated title abstract).take 8).filter
            fun p => decide ((7 : ℚ) ≤ p.2)).length := by
          simp [rank_keywords]
      _ ≤ ((sortedScores explicit generated title abstract).take 8).length :=
          List.length_filter_le _ _
      _ ≤ 8 := by
          rw [List.length_take]
          exact min_le_left _ _
  · intro kw hkw
    simp only [rank_keywords, List.mem_map] at hkw
    obtain ⟨p, hp, hfst⟩ := hkw
    rw [List.mem_filter] at hp
    obtain ⟨htake, hscore⟩ := hp
    refine ⟨p.2, ?_, of_decide_eq_true hscore⟩
    have hmem : p ∈ sortedScores explicit generated title abstract :=
      List.mem_of_mem_take htake
    have hperm := List.perm_insertionSort scoreGE
      (keywordScores explicit generated title abstract)
    rw [hfst.symm]
    exact hperm.subset hmem
  · intro kw hkw
    simp only [rank_keywords, List.mem_map] at hkw
    obtain ⟨p, hp, hfst⟩ := hkw
    rw [List.mem_filter] at hp
    obtain ⟨hdrop, hscore⟩ := hp
    have hmem : p ∈ sortedScores explicit generated title abstract :=
      List.mem_of_mem_drop hdrop
    have hperm := List.perm_insertionSort scoreGE
      (keywordScores explicit generated title abstract)
    refine ⟨p.2, ?_, ?_, of_decide_eq_true hscore⟩
    · rw [hfst.symm]; exact (by simpa using hdrop)
    · rw [hfst.symm]; exact hperm.subset hmem
  · intro p hp hscore
    simp only [rank_keywords, List.mem_map]
    refine ⟨p, ?_, rfl⟩
    rw [List.mem_filter]
    exact ⟨hp, decide_eq_true hscore⟩

theorem rank_keywords_window_witness :
    ∃ sc, ("diversity", sc) ∈ keywordScores ["diversity"] [] "firms" ""
      ∧ (7 : ℚ) ≤ sc :=
  (rank_keywords_window ["diversity"] [] "firms" "").2.1
    "diversity" (by decide)

/-! ## Theorems about concept deduplication and categorization -/

theorem mergeFn_uri (c e : ELSSTConcept) : (mergeFn c e).uri = e.uri := by
  unfold mergeFn
  by_cases h1 : e.uri = c.uri
  · by_cases h2 : e.confidence_score < c.confidence_score <;> simp [h1, h2]
  · simp [h1]

theorem mergeFn_of_ne (c e : ELSSTConcept) (h1 : e.uri ≠ c.uri) :
    mergeFn c e = e := by
  unfold mergeFn
  simp [h1]

theorem mergeFn_conf_ge_left (c e : ELSSTConcept) :
    e.confidence_score ≤ (mergeFn c e).confidence_score := by
  unfold mergeFn
  by_cases h1 : e.uri = c.uri
  · by_cases h2 : e.confidence_score < c.confidence_score
    · simp only [if_pos h1, if_pos h2]
      exact le_of_lt h2
    · simp [h1, h2]
  · simp [h1]

theorem mergeFn_conf_ge_right (c e : ELSSTConcept) (h1 : e.uri = c.uri) :
    c.confidence_score ≤ (mergeFn c e).confidence_score := by
  unfold mergeFn
  by_cases h2 : e.confidence_score < c.confidence_score
  · simp [h1, h2]
  · simp only [if_pos h1, if_neg h2]
    exact le_of_not_lt h2

theorem mergeFn_conf_attained (c e : ELSSTConcept) :
    (mergeFn c e).confidence_score = c.confidence_score ∨
      (mergeFn c e).confidence_score = e.confidence_score := by
  unfold mergeFn
  by_cases h1 : e.uri = c.uri
  · by_cases h2 : e.confidence_score < c.confidence_score <;> simp [h1, h2]
  · simp [h1]

theorem mergeFn_kw (c e : ELSSTConcept) (h1 : e.uri = c.uri) (kw : String) :
    kw ∈ (mergeFn c e).matching_keywords ↔
      kw ∈ c.matching_keywords ∨ kw ∈ e.matching_keywords := by
  unfold mergeFn
  by_cases h2 : e.confidence_score < c.confidence_score
  · simp only [if_pos h1, if_pos h2]
    rw [List.mem_dedup, List.mem_append]
  · simp only [if_pos h1, if_neg h2]
    rw [List.mem_dedup, List.mem_append]
    tauto

theorem dedupInv_step (seen m : List ELSSTConcept) (c : ELSSTConcept)
    (h : DedupInv seen m) : DedupInv (seen ++ [c]) (mergeInto m c) := by
  unfold mergeInto
  split
  · next hany =>
    have hex : ∃ e ∈ m, e.uri = c.uri := by
      rcases List.any_eq_true.mp hany with ⟨e, he, hp⟩
      exact ⟨e, he, of_decide_eq_true hp⟩
    refine ⟨?_, ?_, ?_, ?_, ?_⟩
    · have : (m.map (mergeFn c)).map ELSSTConcept.uri
          = m.map ELSSTConcept.uri := by
        rw [List.map_map]
        exact List.map_congr_left fun e _ => mergeFn_uri c e
      rw [this]
      exact h.nodup
    · intro c' hc' d hd heq
      rcases List.mem_map.mp hc' with ⟨e, he, hfe⟩
      subst hfe
      rw [mergeFn_uri] at heq
      rcases List.mem_append.mp hd with hds | hdc
      · exact le_trans (h.maxConf e he d hds heq) (mergeFn_conf_ge_left c e)
      · have hdc' : c = d := Eq.symm (by simpa using hdc)
        subst hdc'
        by_cases h1 : e.uri = c.uri
        · exact mergeFn_conf_ge_right c e h1
        · exact absurd heq.symm h1
    · intro c' hc'
      rcases List.mem_map.mp hc' with ⟨e, he, hfe⟩
      subst hfe
      by_cases h1 : e.uri = c.uri
      · rcases mergeFn_conf_attained c e with hconf | hconf
        · exact ⟨c, List.mem_append.mpr (Or.inr (by simp)),
            by rw [mergeFn_uri, h1], hconf.symm⟩
        · rcases h.attained e he with ⟨d, hds, hdu, hdc⟩
          exact ⟨d, List.mem_append.mpr (Or.inl hds),
            by rw [mergeFn_uri]; exact hdu, by rw [hdc, hconf]⟩
      · rw [mergeFn_of_ne c e h1]
        rcases h.attained e he with ⟨d, hds, hdu, hdc⟩
        exact ⟨d, List.mem_append.mpr (Or.inl hds), hdu, hdc⟩
    · intro c' hc' kw
      rcases List.mem_map.mp hc' with ⟨e, he, hfe⟩
      subst hfe
      by_cases h1 : e.uri = c.uri
      · rw [mergeFn_kw c e h1 kw]
        constructor
        · intro hkw
          rcases hkw with hkc | hke
          · exact ⟨c, List.mem_append.mpr (Or.inr (by simp)),
              by rw [mergeFn_uri, h1], hkc⟩
          · rcases (h.kwUnion e he kw).mp hke with ⟨d, hds, hdu, hdk⟩
            exact ⟨d, List.mem_append.mpr (Or.inl hds),
              by rw [mergeFn_uri]; exact hdu, hdk⟩
        · rintro ⟨d, hd, hdu, hdk⟩
          rw [mergeFn_uri] at hdu
          rcases List.mem_append.mp hd with hds | hdc
          · exact Or.inr ((h.kwUnion e he kw).mpr ⟨d, hds, hdu, hdk⟩)
          · have hde : c = d := Eq.symm (by simpa using hdc)
            subst hde
            exact Or.inl hdk
      · rw [mergeFn_of_ne c e h1]
        rw [h.kwUnion e he kw]
        constructor
        · rintro ⟨d, hds, hdu, hdk⟩
          exact ⟨d, List.mem_append.mpr (Or.inl hds), hdu, hdk⟩
        · rintro ⟨d, hd, hdu, hdk⟩
          rcases List.mem_append.mp hd with hds | hdc
          · exact ⟨d, hds, hdu, hdk⟩
          · have hde : c = d := Eq.symm (by simpa using hdc)
            subst hde
            exact absurd hdu.symm h1
    · intro d hd
      rcases List.mem_append.mp hd with hds | hdc
      · rcases h.complete d hds with ⟨e, he, hu⟩
        exact ⟨mergeFn c e, List.mem_map_of_mem _ he,
          by rw [mergeFn_uri]; exact hu⟩
      · have hde : c = d := Eq.symm (by simpa using hdc)
        subst hde
        rcases hex with ⟨e, he, hu⟩
        exact ⟨mergeFn c e, List.mem_map_of_mem _ he,
          by rw [mergeFn_uri]; exact hu⟩
  · next hany =>
    have hnone : ∀ e ∈ m, e.uri ≠ c.uri := by
      intro e he heq
      exact hany (List.any_eq_true.mpr ⟨e, he, decide_eq_true heq⟩)
    refine ⟨?_, ?_, ?_, ?_, ?_⟩
    · rw [List.map_append, List.nodup_append]
      refine ⟨h.nodup, by simp, ?_⟩
      intro a ha hb
      simp only [List.map_cons, List.map_nil, List.mem_singleton] at hb
      rcases List.mem_map.mp ha with ⟨e, he, hu⟩
      exact hnone e he (hu.trans hb)
    · intro c' hc' d hd heq
      rcases List.mem_append.mp hc' with hcm | hcc
      · rcases List.mem_append.mp hd with hds | hdc
        · exact h.maxConf c' hcm d hds heq
        · have hde : c = d := Eq.symm (by simpa using hdc)
          subst hde
          exact absurd heq.symm (hnone c' hcm)
      · have hce : c = c' := Eq.symm (by simpa using hcc)
        subst hce
        rcases List.mem_append.mp hd with hds | hdc
        · rcases h.complete d hds with ⟨e, he, hu⟩
          exact absurd (hu.trans heq) (hnone e he)
        · have hde : c = d := Eq.symm (by simpa using hdc)
          subst hde
          exact le_refl _
    · intro c' hc'
      rcases List.mem_append.mp hc' with hcm | hcc
      · rcases h.attained c' hcm with ⟨d, hds, hdu, hdc⟩
        exact ⟨d, List.mem_append.mpr (Or.inl hds), hdu, hdc⟩
      · have hce : c = c' := Eq.symm (by simpa using hcc)
        subst hce
        exact ⟨c, List.mem_append.mpr (Or.inr (by simp)), rfl, rfl⟩
    · intro c' hc' kw
      rcases List.mem_append.mp hc' with hcm | hcc
      · rw [h.kwUnion c' hcm kw]
        constructor
        · rintro ⟨d, hds, hdu, hdk⟩
          exact ⟨d, List.mem_append.mpr (Or.inl hds), hdu, hdk⟩
        · rintro ⟨d, hd, hdu, hdk⟩
          rcases List.mem_append.mp hd with hds | hdc
          · exact ⟨d, hds, hdu, hdk⟩
          · have hde : c = d := Eq.symm (by simpa using hdc)
            subst hde
            exact absurd hdu.symm (hnone c' hcm)
      · have hce : c = c' := Eq.symm (by simpa using hcc)
        subst hce
        constructor
        · intro hkw
          exact ⟨c, List.mem_append.mpr (Or.inr (by simp)), rfl, hkw⟩
        · rintro ⟨d, hd, hdu, hdk⟩
          rcases List.mem_append.mp hd with hds | hdc
          · rcases h.complete d hds with ⟨e, he, hu⟩
            exact absurd (hu.trans hdu) (hnone e he)
          · have hde : c = d := Eq.symm (by simpa using hdc)
            subst hde
            exact hdk
    · intro d hd
      rcases List.mem_append.mp hd with hds | hdc
      · rcases h.complete d hds with ⟨e, he, hu⟩
        exact ⟨e, List.mem_append.mpr (Or.inl he), hu⟩
      · have hde : c = d := Eq.symm (by simpa using hdc)
        subst hde
        exact ⟨c, List.mem_append.mpr (Or.inr (by simp)), rfl⟩

theorem dedupInv_fold :
    ∀ (cs seen m : List ELSSTConcept), DedupInv seen m →
      DedupInv (seen ++ cs) (cs.foldl mergeInto m) := by
  intro cs
  induction cs with
  | nil => intro seen m h; simpa using h
  | cons c rest ih =>
    intro seen m h
    have h1 := dedupInv_step seen m c h
    have h2 := ih (seen ++ [c]) (mergeInto m c) h1
    simpa [List.append_assoc] using h2

theorem dedupInv_nil : DedupInv [] [] := by
  refine ⟨by simp, by simp, by simp, by simp, by simp⟩

/-- C6 (confirmed): `_deduplicate_and_rank_concepts` followed by the
confidence partition of `map_keywords_to_elsst` yields: at most one
concept per uri; each kept concept's confidence is the maximum among its
duplicates and is attained by one of them; its `matching_keywords` are
exactly the union of the duplicates' `matching_keywords`; every input
uri survives; the output is ordered by confidence descending; and it is
partitioned into `primary` (confidence ≥ 0.7) and `secondary`
(0.3 ≤ confidence < 0.7), with concepts below 0.3 in neither list. -/
theorem dedup_categorize_spec (cs : List ELSSTConcept) :
    ((deduplicate_and_rank_concepts cs).map ELSSTConcept.uri).Nodup
    ∧ (∀ c ∈ deduplicate_and_rank_concepts cs,
        (∀ d ∈ cs, d.uri = c.uri → d.confidence_score ≤ c.confidence_score)
        ∧ (∃ d ∈ cs, d.uri = c.uri ∧ d.confidence_score = c.confidence_score)
        ∧ (∀ kw, kw ∈ c.matching_keywords ↔
            ∃ d ∈ cs, d.uri = c.uri ∧ kw ∈ d.matching_keywords))
    ∧ (∀ d ∈ cs, ∃ c ∈ deduplicate_and_rank_concepts cs, c.uri = d.uri)
    ∧ List.Sorted confGE (deduplicate_and_rank_concepts cs)
    ∧ (∀ c ∈ deduplicate_and_rank_concepts cs,
        ((7 / 10 : ℚ) ≤ c.confidence_score →
          c ∈ (categorizeConcepts (deduplicate_and_rank_concepts cs)).1
          ∧ c ∉ (categorizeConcepts (deduplicate_and_rank_concepts cs)).2)
        ∧ ((3 / 10 : ℚ) ≤ c.confidence_score ∧ c.confidence_score < 7 / 10 →
          c ∈ (categorizeConcepts (deduplicate_and_rank_concepts cs)).2
          ∧ c ∉ (categorizeConcepts (deduplicate_and_rank_concepts cs)).1)
        ∧ (c.confidence_score < 3 / 10 →
          c ∉ (categorizeConcepts (deduplicate_and_rank_concepts cs)).1
          ∧ c ∉ (categorizeConcepts (deduplicate_and_rank_concepts cs)).2)) := by
  have hinv : DedupInv cs (cs.foldl mergeInto []) := by
    simpa using dedupInv_fold cs [] [] dedupInv_nil
  have hperm : List.Perm (deduplicate_and_rank_concepts cs)
      (cs.foldl mergeInto []) :=
    List.perm_insertionSort confGE (cs.foldl mergeInto [])
  have hmem : ∀ c, c ∈ deduplicate_and_rank_concepts cs ↔
      c ∈ cs.foldl mergeInto [] := fun c => hperm.mem_iff
  refine ⟨?_, ?_, ?_, ?_, ?_⟩
  · exact ((hperm.map ELSSTConcept.uri).nodup_iff).mpr hinv.nodup
  · intro c hc
    have hc' := (hmem c).mp hc
    exact ⟨fun d hd => hinv.maxConf c hc' d hd,
      hinv.attained c hc', hinv.kwUnion c hc'⟩
  · intro d hd
    rcases hinv.complete d hd with ⟨c, hc, hu⟩
    exact ⟨c, (hmem c).mpr hc, hu⟩
  · exact List.sorted_insertionSort confGE (cs.foldl mergeInto [])
  · intro c hc
    refine ⟨?_, ?_, ?_⟩
    · intro h7
      constructor
      · simp only [categorizeConcepts, List.mem_filter]
        exact ⟨hc, decide_eq_true h7⟩
      · simp only [categorizeConcepts, List.mem_filter]
        rintro ⟨-, hcond⟩
        simp only [Bool.and_eq_true] at hcond
        exact absurd (of_decide_eq_true hcond.2) (not_lt.mpr h7)
    · rintro ⟨h3, h7⟩
      constructor
      · simp only [categorizeConcepts, List.mem_filter]
        refine ⟨hc, ?_⟩
        simp only [Bool.and_eq_true]
        exact ⟨decide_eq_true h3, decide_eq_true h7⟩
      · simp only [categorizeConcepts, List.mem_filter]
        rintro ⟨-, hge⟩
        exact absurd (of_decide_eq_true hge) (not_le.mpr h7)
    · intro hlow
      constructor
      · simp only [categorizeConcepts, List.mem_filter]
        rintro ⟨-, hge⟩
        have h7 := of_decide_eq_true hge
        have : (3 / 10 : ℚ) ≤ 7 / 10 := by norm_num
        exact absurd (le_trans this h7) (not_le.mpr hlow)
      · simp only [categorizeConcepts, List.mem_filter]
        rintro ⟨-, hcond⟩
        simp only [Bool.and_eq_true] at hcond
        exact absurd (of_decide_eq_true hcond.1) (not_le.mpr hlow)

theorem dedup_categorize_spec_witness :
    ∃ c ∈ deduplicate_and_rank_concepts [wConceptA, wConceptB],
      c.uri = wConceptA.uri :=
  (dedup_categorize_spec [wConceptA, wConceptB]).2.2.1 wConceptA (by decide)

/-! ## Theorems about the cache keys -/

/-- C7 counterexample: the cache keys are not whitespace-insensitive —
titles differing only in internal whitespace produce different md5
digest inputs (hence different keys, md5 collisions aside) — and the
ELSST key is not even fully case-insensitive: `sorted` runs on the
original-case keywords before lowercasing, so a case change that alters
the sort order changes the key. -/
theorem cache_key_whitespace_dependent :
    create_cache_key_content "a b" "x" ≠ create_cache_key_content "a  b" "x"
    ∧ create_cache_key_elsst ["B", "a"] "t" ≠ create_cache_key_elsst ["b", "a"] "t" := by
  exact ⟨by decide, by decide⟩

/-- C7 (corrected): the keys are content-addressed only up to
lowercasing (and keyword reordering, for the ELSST key): inputs equal
after per-character lowercasing give the same content key, and permuted
keyword lists give the same ELSST key.  Whitespace differences — and,
for the ELSST key, case differences that change the case-sensitive sort
order of the keywords — produce different digest inputs and hence
different keys. -/
theorem cache_key_normalization :
    (∀ t1 a1 t2 a2 : String,
      t1.toList.map Char.toLower = t2.toList.map Char.toLower →
      a1.toList.map Char.toLower = a2.toList.map Char.toLower →
      create_cache_key_content t1 a1 = create_cache_key_content t2 a2)
    ∧ (∀ (kws1 kws2 : List String) (t : String), List.Perm kws1 kws2 →
      create_cache_key_elsst kws1 t = create_cache_key_elsst kws2 t) := by
  constructor
  · intro t1 a1 t2 a2 h1 h2
    unfold create_cache_key_content
    simp only [List.map_append, List.map_cons]
    rw [h1, h2]
  · intro kws1 kws2 t hperm
    have hs1 : List.Sorted strLe (sortStrings kws1) :=
      List.sorted_insertionSort strLe kws1
    have hs2 : List.Sorted strLe (sortStrings kws2) :=
      List.sorted_insertionSort strLe kws2
    have hp : List.Perm (sortStrings kws1) (sortStrings kws2) :=
      ((List.perm_insertionSort strLe kws1).trans hperm).trans
        (List.perm_insertionSort strLe kws2).symm
    have hsort : sortStrings kws1 = sortStrings kws2 :=
      List.eq_of_perm_of_sorted hp hs1 hs2
    unfold create_cache_key_elsst
    rw [hsort]

theorem cache_key_normalization_witness :
    create_cache_key_content "Ab" "C" = create_cache_key_content "aB" "c"
    ∧ create_cache_key_elsst ["x", "y"] "t" = create_cache_key_elsst ["y", "x"] "t" :=
  ⟨cache_key_normalization.1 "Ab" "C" "aB" "c" (by decide) (by decide),
   cache_key_normalization.2 ["x", "y"] ["y", "x"] "t" (by decide)⟩

/-! ## Theorems about the cache flush -/

/-- C8 counterexample: with previously-good data `"old"` on disk, a
crash after the first effect of `_save_cache` (the truncating `open`)
leaves the cache file holding neither the old nor the new contents —
the previously-good data is already destroyed before the write
completes, so the flush is not crash-atomic. -/
theorem save_cache_midcrash_loss :
    runFileOps ((save_cache_ops "cache.json" "new").take 1) cexDisk "cache.json"
      ≠ some "old"
    ∧ runFileOps ((save_cache_ops "cache.json" "new").take 1) cexDisk "cache.json"
      ≠ some "new" := by
  exact ⟨by decide, by decide⟩

/-- C8 (corrected): `_save_cache` is an in-place overwrite, not a
write-temp-then-rename: every effect targets the cache file itself, the
first effect truncates it (so a crash between the two effects leaves an
empty file, losing the previous contents), and only after the final
effect does the file hold the new serialization. -/
theorem save_cache_overwrite_in_place (file data : String)
    (disk : String → Option String) :
    runFileOps ((save_cache_ops file data).take 1) disk file = some ""
    ∧ runFileOps (save_cache_ops file data) disk file = some data
    ∧ ∀ op ∈ save_cache_ops file data, op.path = file := by
  refine ⟨?_, ?_, ?_⟩
  · simp [save_cache_ops, runFileOps, applyFileOp]
  · simp [save_cache_ops, runFileOps, applyFileOp]
  · intro op hop
    simp only [save_cache_ops, List.mem_cons, List.not_mem_nil, or_false] at hop
    rcases hop with rfl | rfl <;> rfl

theorem save_cache_overwrite_in_place_witness :
    runFileOps ((save_cache_ops "cache.json" "new").take 1) cexDisk "cache.json"
      = some ""
    ∧ runFileOps (save_cache_ops "cache.json" "new") cexDisk "cache.json"
      = some "new" :=
  ⟨(save_cache_overwrite_in_place "cache.json" "new" cexDisk).1,
   (save_cache_overwrite_in_place "cache.json" "new" cexDisk).2.1⟩

/-! ## Theorems about the caching orchestration -/

theorem find_map_replace (t : List (List Char × ContentInfo)) (k : List Char)
    (v : ContentInfo) (h : (t.any fun e => decide (e.1 = k)) = true) :
    lookupCache (t.map fun e => if e.1 = k then (k, v) else e) k = some v := by
  induction t with
  | nil => simp at h
  | cons e t ih =>
    by_cases he : e.1 = k
    · simp only [List.map_cons, if_pos he]
      unfold lookupCache
      rw [List.find?_cons_of_pos _ (by simp)]
      rfl
    · have h' : (t.any fun e => decide (e.1 = k)) = true := by
        simpa [List.any_cons, he] using h
      simp only [List.map_cons, if_neg he]
      unfold lookupCache at ih ⊢
      rw [List.find?_cons_of_neg _ (by simp [he])]
      exact ih h'

theorem lookupCache_store (cache : List (List Char × ContentInfo))
    (k : List Char) (v : ContentInfo) :
    lookupCache (storeCache cache k v) k = some v := by
  unfold storeCache
  split
  · next hany => exact find_map_replace cache k v hany
  · next hany =>
    induction cache with
    | nil =>
      unfold lookupCache
      rw [List.nil_append, List.find?_cons_of_pos _ (by simp)]
      rfl
    | cons e t ih =>
      have he : ¬ e.1 = k := by
        intro heq
        exact hany (by simp [List.any_cons, heq])
      have ht : ¬ (t.any fun e => decide (e.1 = k)) = true := by
        intro hta
        exact hany (by simp [List.any_cons, hta])
      unfold lookupCache at ih ⊢
      rw [List.cons_append, List.find?_cons_of_neg _ (by simp [he])]
      exact ih ht

theorem find_map_replace_elsst (t : List (List Char × ELSSTInfo))
    (k : List Char) (v : ELSSTInfo)
    (h : (t.any fun e => decide (e.1 = k)) = true) :
    lookupElsstCache (t.map fun e => if e.1 = k then (k, v) else e) k
      = some v := by
  induction t with
  | nil => simp at h
  | cons e t ih =>
    by_cases he : e.1 = k
    · simp only [List.map_cons, if_pos he]
      unfold lookupElsstCache
      rw [List.find?_cons_of_pos _ (by simp)]
      rfl
    · have h' : (t.any fun e => decide (e.1 = k)) = true := by
        simpa [List.any_cons, he] using h
      simp only [List.map_cons, if_neg he]
      unfold lookupElsstCache at ih ⊢
      rw [List.find?_cons_of_neg _ (by simp [he])]
      exact ih h'

theorem lookupElsstCache_store (cache : List (List Char × ELSSTInfo))
    (k : List Char) (v : ELSSTInfo) :
    lookupElsstCache (storeElsstCache cache k v) k = some v := by
  unfold storeElsstCache
  split
  · next hany => exact find_map_replace_elsst cache k v hany
  · next hany =>
    induction cache with
    | nil =>
      unfold lookupElsstCache
      rw [List.nil_append, List.find?_cons_of_pos _ (by simp)]
      rfl
    | cons e t ih =>
      have he : ¬ e.1 = k := by
        intro heq
        exact hany (by simp [List.any_cons, heq])
      have ht : ¬ (t.any fun e => decide (e.1 = k)) = true := by
        intro hta
        exact hany (by simp [List.any_cons, hta])
      unfold lookupElsstCache at ih ⊢
      rw [List.cons_append, List.find?_cons_of_neg _ (by simp [he])]
      exact ih ht

theorem lookupElsstCache_mem (cache : List (List Char × ELSSTInfo))
    (k : List Char) (v : ELSSTInfo)
    (h : lookupElsstCache cache k = some v) : ∃ k', (k', v) ∈ cache := by
  unfold lookupElsstCache at h
  cases hf : cache.find? (fun e => decide (e.1 = k)) with
  | none => rw [hf] at h; cases h
  | some e =>
    rw [hf] at h
    have hv : e.2 = v := by simpa using h
    have hmem := List.mem_of_find?_eq_some hf
    exact ⟨e.1, by rw [← hv]; exact hmem⟩

/-- C9 counterexample: a first (cache-missing) run of
`map_keywords_to_elsst` that finds one concept, followed by a key-equal
second run.  The second run is a pure cache hit (its state, and hence
the `search_elsst_concepts` invocation count, is exactly the first
run's), but its result is NOT identical to the first run's: the first
returned the concept as an `ELSSTConcept` dataclass instance, while the
hit hands back `ELSSTInfo(**cached_data)` whose `primary_concepts`
entry is the plain dict that `asdict` stored — and in Python a dict
never compares equal to the dataclass instance, falsifying the
"identical result" part of the claim for `map_keywords_to_elsst`. -/
theorem elsst_second_call_not_identical :
    cexElsstSecond.1 ≠ cexElsstFirst.1
    ∧ cexElsstSecond.2 = cexElsstFirst.2
    ∧ cexElsstFirst.1.primary_concepts = [ConceptRec.obj wConceptA]
    ∧ cexElsstSecond.1.primary_concepts = [ConceptRec.dict wConceptA] := by
  have hconf : wConceptA.confidence_score = 1 := rfl
  have hcat : categorizeConcepts [wConceptA] = ([wConceptA], []) := by
    unfold categorizeConcepts
    have h1 : decide ((7 / 10 : ℚ) ≤ wConceptA.confidence_score) = true :=
      decide_eq_true (by rw [hconf]; norm_num)
    have h2 : decide (wConceptA.confidence_score < (7 / 10 : ℚ)) = false :=
      decide_eq_false (by rw [hconf]; norm_num)
    simp [List.filter_cons, h1, h2]
  have hP1 : cexElsstFirst.1.primary_concepts = [ConceptRec.obj wConceptA] := by
    show (elsstTryBlock [wConceptA]
        (initELSSTInfo "t" ["economy"] "0")).primary_concepts
      = [ConceptRec.obj wConceptA]
    simp [elsstTryBlock, hcat]
  have hP2 : cexElsstSecond.1.primary_concepts
      = [ConceptRec.dict wConceptA] := by
    show (asdictInfo (elsstTryBlock [wConceptA]
        (initELSSTInfo "t" ["economy"] "0"))).primary_concepts
      = [ConceptRec.dict wConceptA]
    simp [asdictInfo, elsstTryBlock, hcat, toDictRec]
  refine ⟨?_, rfl, hP1, hP2⟩
  intro h
  have hcontr := congrArg ELSSTInfo.primary_concepts h
  rw [hP1, hP2] at hcontr
  exact absurd hcontr (by simp)

/-- C9 (corrected): for `extract_content_and_keywords` the claim holds
verbatim — a key-equal second call returns exactly the first call's
record and leaves the state, including the count of `try`-block
executions (the only site of network I/O), unchanged.  For
`map_keywords_to_elsst` the second call likewise performs zero
additional network calls (its state is exactly the first call's), but
what it returns is the `asdict`-rehydration of the first call's record
— the cached form whose concept lists are plain dicts — rather than
the record itself (the dict-normalization hypothesis on the starting
cache is the invariant every real cache satisfies, since entries are
only ever written through `asdict`). -/
theorem cache_idempotent :
    (∀ (body : String → String → String → ContentInfo →
        Except ContentInfo ContentInfo)
      (now1 now2 : String) (st : EnricherState) (t1 a1 u1 t2 a2 u2 : String),
      create_cache_key_content t2 a2 = create_cache_key_content t1 a1 →
      extract_content_and_keywords body now2
          (extract_content_and_keywords body now1 st t1 a1 u1).2 t2 a2 u2
        = extract_content_and_keywords body now1 st t1 a1 u1)
    ∧ (∀ (search : List String → String → String →
        Except Unit (List ELSSTConcept))
      (now1 now2 : String) (st : ElsstState) (kws1 : List String)
      (t1 ab1 : String) (kws2 : List String) (t2 ab2 : String),
      create_cache_key_elsst kws2 t2 = create_cache_key_elsst kws1 t1 →
      (∀ e ∈ st.cache, asdictInfo e.2 = e.2) →
      map_keywords_to_elsst search now2
          (map_keywords_to_elsst search now1 st kws1 t1 ab1).2 kws2 t2 ab2
        = (asdictInfo (map_keywords_to_elsst search now1 st kws1 t1 ab1).1,
           (map_keywords_to_elsst search now1 st kws1 t1 ab1).2)) := by
  constructor
  · intro body now1 now2 st t1 a1 u1 t2 a2 u2 hkey
    unfold extract_content_and_keywords
    rw [hkey]
    cases h : lookupCache st.cache (create_cache_key_content t1 a1) with
    | some cached => simp [h]
    | none => simp [h, lookupCache_store]
  · intro search now1 now2 st kws1 t1 ab1 kws2 t2 ab2 hkey hnorm
    unfold map_keywords_to_elsst
    rw [hkey]
    cases h : lookupElsstCache st.cache (create_cache_key_elsst kws1 t1) with
    | some cached =>
      obtain ⟨k', hk⟩ := lookupElsstCache_mem _ _ _ h
      have hd : asdictInfo cached = cached := hnorm (k', cached) hk
      simp [h, hd]
    | none => simp [h, lookupElsstCache_store]

theorem cache_idempotent_witness :
    (extract_content_and_keywords wBody "1"
        (extract_content_and_keywords wBody "0" ⟨[], 0⟩ "Foo" "Bar" "u").2
        "FOO" "BAR" "u2"
      = extract_content_and_keywords wBody "0" ⟨[], 0⟩ "Foo" "Bar" "u")
    ∧ map_keywords_to_elsst wSearch "1"
        (map_keywords_to_elsst wSearch "0" ⟨[], 0⟩ ["economy"] "t" "").2
        ["Economy"] "t" ""
      = (asdictInfo
          (map_keywords_to_elsst wSearch "0" ⟨[], 0⟩ ["economy"] "t" "").1,
         (map_keywords_to_elsst wSearch "0" ⟨[], 0⟩ ["economy"] "t" "").2) :=
  ⟨cache_idempotent.1 wBody "0" "1" ⟨[], 0⟩ "Foo" "Bar" "u" "FOO" "BAR" "u2"
     (by decide),
   cache_idempotent.2 wSearch "0" "1" ⟨[], 0⟩ ["economy"] "t" "" ["Economy"]
     "t" "" (by decide) (by simp)⟩

/-- C10 (confirmed): on a cache miss whose `try` block raises, the
record — with `extraction_method = "failed"` and
`extraction_confidence = 0.0` — is still written to the cache (the
cache state changes on error: the key that was absent is now present),
one `try`-block execution is consumed, and a subsequent call with the
same key replays the failed record from the cache without running the
`try` block again. -/
theorem failed_result_cached
    (body : String → String → String → ContentInfo →
      Except ContentInfo ContentInfo)
    (now : String) (st : EnricherState) (title authors uri : String)
    (p : ContentInfo)
    (hmiss : lookupCache st.cache (create_cache_key_content title authors)
      = none)
    (hfail : body title authors uri (initContentInfo title authors uri now)
      = .error p) :
    (extract_content_and_keywords body now st title authors uri).1
      = failedInfo p
    ∧ lookupCache
        (extract_content_and_keywords body now st title authors uri).2.cache
        (create_cache_key_content title authors)
      = some (failedInfo p)
    ∧ (extract_content_and_keywords body now st title authors uri).2.bodyInvocations
      = st.bodyInvocations + 1
    ∧ extract_content_and_keywords body now
        (extract_content_and_keywords body now st title authors uri).2
        title authors uri
      = ((extract_content_and_keywords body now st title authors uri).1,
         (extract_content_and_keywords body now st title authors uri).2) := by
  refine ⟨?_, ?_, ?_, ?_⟩
  · simp [extract_content_and_keywords, hmiss, hfail]
  · simp [extract_content_and_keywords, hmiss, hfail, lookupCache_store]
  · simp [extract_content_and_keywords, hmiss, hfail]
  · conv_rhs => rw [extract_content_and_keywords]
    simp only [extract_content_and_keywords, hmiss, hfail]
    simp [lookupCache_store]

theorem failed_result_cached_witness :
    (extract_content_and_keywords wFailBody "0" ⟨[], 0⟩ "T" "A" "U").1
      = failedInfo (initContentInfo "T" "A" "U" "0")
    ∧ lookupCache
        (extract_content_and_keywords wFailBody "0" ⟨[], 0⟩ "T" "A" "U").2.cache
        (create_cache_key_content "T" "A")
      = some (failedInfo (initContentInfo "T" "A" "U" "0"))
    ∧ (extract_content_and_keywords wFailBody "0" ⟨[], 0⟩ "T" "A" "U").2.bodyInvocations
      = (⟨[], 0⟩ : EnricherState).bodyInvocations + 1
    ∧ extract_content_and_keywords wFailBody "0"
        (extract_content_and_keywords wFailBody "0" ⟨[], 0⟩ "T" "A" "U").2
        "T" "A" "U"
      = ((extract_content_and_keywords wFailBody "0" ⟨[], 0⟩ "T" "A" "U").1,
         (extract_content_and_keywords wFailBody "0" ⟨[], 0⟩ "T" "A" "U").2) :=
  failed_result_cached wFailBody "0" ⟨[], 0⟩ "T" "A" "U"
    (initContentInfo "T" "A" "U" "0") rfl rfl

end SshocNL
